import Mathlib

/-!
Verification of the Poseidon transcript layer (`src/halo2_proofs/src/transcript/poseidon.rs`).

Shallow embedding conventions:
* A field element is represented by its canonical value, a `Nat` strictly below the
  field's modulus.  Base-field elements live below `p`, scalar-field elements below `r`.
* `BigUint` is represented by `Nat`; `to_bytes_le`, `Vec::resize` and the fixed-width
  canonical encodings are modelled byte-for-byte (a byte is a `Nat` below 256).
* Fallible Rust code (`io::Result`) becomes `Except TErr`; a Rust `panic!`
  (from `assert!` or `.unwrap()`) is modelled by the distinguished error `TErr.panicked`,
  kept distinct from every `io::Error` the code constructs.
* The Poseidon sponge of the external `poseidon` crate is, per the spec, an opaque
  primitive; its state is modelled as the exact history of absorb/squeeze events, and
  the squeezed value is an arbitrary deterministic function of that history.
-/

/-- Value of a little-endian byte list: `fromLEBytes [b0, b1, ...] = b0 + 256*b1 + ...`. -/
def fromLEBytes (l : List Nat) : Nat :=
  l.foldr (fun d acc => d + 256 * acc) 0

/-- Fixed-width little-endian byte encoding of `m` (the canonical `to_repr` /
`write` encoding of a field element, which always emits exactly `w` bytes). -/
def leBytes : Nat → Nat → List Nat
  | 0, _ => []
  | w + 1, m => m % 256 :: leBytes w (m / 256)

/-- Minimal little-endian digits of `m`, with explicit fuel (the fuel `m` used by
`to_bytes_le` is always sufficient, since a number has at most `m` base-256 digits). -/
def bytesLEAux : Nat → Nat → List Nat
  | 0, _ => []
  | fuel + 1, m => if m = 0 then [] else m % 256 :: bytesLEAux fuel (m / 256)

/-- Model of `BigUint::to_bytes_le`: minimal little-endian bytes, with `[0]` for zero. -/
def to_bytes_le (m : Nat) : List Nat :=
  if m = 0 then [0] else bytesLEAux m m

/-- Model of `Vec::resize(new_len, 0)`: pad with zero bytes, or truncate. -/
def resizeList (l : List Nat) (new_len : Nat) : List Nat :=
  if l.length ≤ new_len then l ++ List.replicate (new_len - l.length) 0
  else l.take new_len

/-- Model of `F::read` for the 32-byte fields in use: read exactly 32 bytes,
interpret little-endian, and accept only the canonical (reduced) range `< r`. -/
def field_read (r : Nat) (bytes : List Nat) : Option Nat :=
  if bytes.length < 32 then none
  else if fromLEBytes (bytes.take 32) < r then some (fromLEBytes (bytes.take 32))
  else none

/-- Model of `big_to_fe` (poseidon.rs lines 273-280): reduce `e` modulo the target
modulus `r` (`modulus::<F>()` is the parameter `r`), serialize with `to_bytes_le`,
`resize(32, 0)`, and decode with `F::read`.  The source `.unwrap()`s the read;
here the panic is the `none` case, which callers surface as `TErr.panicked`. -/
def big_to_fe (r e : Nat) : Option Nat :=
  field_read r (resizeList (to_bytes_le (e % r)) 32)

/-- Model of `fe_to_big` (poseidon.rs lines 282-286): write the canonical 32-byte
little-endian encoding of the field element and reinterpret it as an integer. -/
def fe_to_big (fe : Nat) : Nat :=
  fromLEBytes (leBytes 32 fe)

/-- Model of `sign` (poseidon.rs lines 288-292): the low bit of the first canonical
byte, i.e. `bytes[0] & 1 == 0` (true exactly when the element is even). -/
def sign (fe : Nat) : Bool :=
  ((leBytes 32 fe).headD 0) &&& 1 == 0

/-- Recursive worker of `decompose_big` (poseidon.rs lines 259-271): per limb, take
`mask & e` with `mask = (1 << bit_len) - 1`, convert through `big_to_fe`, and shift
`e` right by `bit_len`.  A `none` result models the panic inside `big_to_fe`. -/
def decompose_big_go (r bit_len : Nat) : Nat → Nat → Option (List Nat)
  | _, 0 => some []
  | e, n + 1 =>
    match big_to_fe r ((2 ^ bit_len - 1) &&& e), decompose_big_go r bit_len (e >>> bit_len) n with
    | some limb, some rest => some (limb :: rest)
    | _, _ => none

/-- Model of `decompose_big`: `number_of_limbs` limbs of `bit_len` bits each,
least-significant first, each passed through `big_to_fe` into the field with modulus `r`. -/
def decompose_big (r e number_of_limbs bit_len : Nat) : Option (List Nat) :=
  decompose_big_go r bit_len e number_of_limbs

/-- Model of `decompose` (poseidon.rs lines 243-249): `decompose_big (fe_to_big e)`. -/
def decompose (r e number_of_limbs bit_len : Nat) : Option (List Nat) :=
  decompose_big r (fe_to_big e) number_of_limbs bit_len

/-- Model of `native` (poseidon.rs lines 251-253): `big_to_fe (fe_to_big e % modulus)`. -/
def native (r e : Nat) : Option Nat :=
  big_to_fe r (fe_to_big e % r)

/-- Horner form of the limb recombination `Σ limb_i * 2^(i*bit_len)`. -/
def recomposeLimbs (bit_len : Nat) (limbs : List Nat) : Nat :=
  limbs.foldr (fun l acc => l + 2 ^ bit_len * acc) 0

/-- Event recorded in the sponge history: one absorbed field element, or one squeeze. -/
inductive SpongeEv where
  | absorbed (x : Nat)
  | squeezed
deriving DecidableEq, Repr

/-- State of the `Poseidon<C::Scalar, T, RATE>` sponge, modelled (per the spec, which
treats the permutation as an opaque primitive) as the round parameters together with
the exact history of absorb/squeeze events.  Two sponges with equal histories are
indistinguishable, and every squeezed value is a deterministic function of the history. -/
structure PoseidonState where
  rF : Nat
  rP : Nat
  trace : List SpongeEv
deriving DecidableEq, Repr

/-- Model of `Poseidon::new(r_f, r_p)`: fresh sponge with the given round parameters. -/
def Poseidon.new (rF rP : Nat) : PoseidonState :=
  { rF := rF, rP := rP, trace := [] }

/-- Model of `Poseidon::update(&[...])`: absorb the given elements, in order. -/
def PoseidonState.update (st : PoseidonState) (input : List Nat) : PoseidonState :=
  { st with trace := st.trace ++ input.map SpongeEv.absorbed }

/-- Affine curve point: the identity (point at infinity, which has no coordinates),
or an affine pair of canonical base-field values. -/
inductive APoint where
  | identity
  | affine (x y : Nat)
deriving DecidableEq, Repr

/-- Transcript errors.  The first four model the `io::Error`s the source constructs
(`read_exact` exhaustion, the two decoding errors, and the point-at-infinity error);
`panicked` models a Rust panic (`assert!` failure or `.unwrap()` of a failed read). -/
inductive TErr where
  | unexpectedEof
  | invalidPointEncoding
  | invalidScalarEncoding
  | infinity
  | panicked
deriving DecidableEq, Repr

/-- Modelled from the spec: the `CurveAffine`/`FieldExt` trait bounds (declared in
`crate::arithmetic`, not present under `src/`) and the external curve/field crates.
Per spec section 6, any curve supplies affine coordinate extraction, on-curve and
identity tests, and a canonical compressed point encoding of fixed width that
round-trips through decode; any field supplies a canonical fixed-width little-endian
byte encoding.  The sponge's squeezed output is an arbitrary deterministic function
`squeezeFn` of the sponge state (spec section 6 treats the permutation as opaque). -/
structure Model where
  p : Nat
  r : Nat
  scalarWidth : Nat
  pointWidth : Nat
  r_pos : 0 < r
  r_le_width : r ≤ 256 ^ scalarWidth
  isOnCurve : Nat → Nat → Bool
  pointToBytes : APoint → List Nat
  pointFromBytes : List Nat → Option APoint
  squeezeFn : PoseidonState → Nat
  pointToBytes_length : ∀ pt, (pointToBytes pt).length = pointWidth
  point_roundtrip : ∀ x, x < p → ∀ y, y < p → isOnCurve x y = true →
    pointFromBytes (pointToBytes (APoint.affine x y)) = some (APoint.affine x y)

/-- Model of `Poseidon::squeeze`: emit a value determined by the current state and
advance the state (squeezing is not idempotent; the history records the squeeze). -/
def PoseidonState.squeeze (M : Model) (st : PoseidonState) : Nat × PoseidonState :=
  (M.squeezeFn st, { st with trace := st.trace ++ [SpongeEv.squeezed] })

/-- Model of `scalar.to_repr()`: the canonical fixed-width little-endian bytes. -/
def scalar_to_repr (M : Model) (s : Nat) : List Nat :=
  leBytes M.scalarWidth s

/-- Model of `C::Scalar::from_repr`: decode the fixed-width little-endian bytes,
accepting only the canonical range `< r`. -/
def scalar_from_repr (M : Model) (bytes : List Nat) : Option Nat :=
  if fromLEBytes bytes < M.r then some (fromLEBytes bytes) else none

/-- Model of `PointRepresentation::xy` (poseidon.rs lines 17-25): the affine
coordinates, or the explicit point-at-infinity error for the identity
(`point.coordinates()` is `None` exactly for the identity, per spec section 3). -/
def xy : APoint → Except TErr (Nat × Nat)
  | .identity => .error .infinity
  | .affine x y => .ok (x, y)

/-- Model of `point.is_on_curve()`: the identity is on the curve; an affine pair is
tested with the curve equation. -/
def is_on_curve (M : Model) : APoint → Bool
  | .identity => true
  | .affine x y => M.isOnCurve x y

/-- Model of `point.is_identity()`. -/
def is_identity : APoint → Bool
  | .identity => true
  | .affine _ _ => false

/-- Model of `LimbRepresentation::encode` (poseidon.rs lines 39-50): assert the point
is on the curve and not the identity (both asserts panic on failure), take the
coordinates, decompose `x` into limbs, and append `1` if `sign y` else `0`. -/
def LimbRepresentation.encode (M : Model) (number_of_limbs bit_len : Nat)
    (point : APoint) : Except TErr (List Nat) :=
  if !is_on_curve M point then .error .panicked
  else if is_identity point then .error .panicked
  else
    match xy point with
    | .error e => .error e
    | .ok (x, y) =>
      match decompose M.r x number_of_limbs bit_len with
      | none => .error .panicked
      | some limbs => .ok (limbs ++ [if sign y then 1 else 0])

/-- Model of `NativeRepresentation::encode` (poseidon.rs lines 62-67): the
coordinates, each reduced into the scalar field through `native`. -/
def NativeRepresentation.encode (M : Model) (point : APoint) : Except TErr (List Nat) :=
  match xy point with
  | .error e => .error e
  | .ok (x, y) =>
    match native M.r x, native M.r y with
    | some nx, some ny => .ok [nx, ny]
    | _, _ => .error .panicked

/-- Model of `Transcript::squeeze_challenge` (identical impls at poseidon.rs lines
135-140 and 214-219): `state.update(&[/* PREFIX_CHALLENGE */])` — an update with the
EMPTY slice, the marker exists only in the comment — then squeeze; the challenge
wraps the squeezed scalar.  Returns the new sponge state and the challenge scalar
(`Challenge` is modelled from the spec section 4.3 as a plain wrapper around the
squeezed field element, its `get_scalar` being the value itself). -/
def squeeze_challenge (M : Model) (st : PoseidonState) : PoseidonState × Nat :=
  let st := st.update []
  let (c, st) := PoseidonState.squeeze M st
  (st, c)

/-- Model of `Transcript::common_point` (identical impls at poseidon.rs lines 142-147
and 221-226), parameterized by the encoding strategy `Enc` (the `Z` type parameter):
`state.update(&[/* PREFIX_POINT */])` — again the empty slice — then absorb the
encoding, propagating its error.  Mirroring `&mut self`, the state reached at the
moment of failure is returned alongside the error. -/
def common_point (Enc : APoint → Except TErr (List Nat)) (st : PoseidonState)
    (point : APoint) : PoseidonState × Except TErr Unit :=
  let st := st.update []
  match Enc point with
  | .error e => (st, .error e)
  | .ok enc => (st.update enc, .ok ())

/-- Model of `Transcript::common_scalar` (identical impls at poseidon.rs lines
149-154 and 228-233): `state.update(&[/* PREFIX_SCALAR */])` — the empty slice —
then absorb the one scalar; always `Ok(())`. -/
def common_scalar (st : PoseidonState) (scalar : Nat) : PoseidonState × Except TErr Unit :=
  let st := st.update []
  (st.update [scalar], .ok ())

/-- Model of `PoseidonWrite`: the sponge state and the byte sink (the `Vec<u8>`
writer the repository's test uses; `write_all` to it always succeeds). -/
structure PoseidonWrite where
  state : PoseidonState
  writer : List Nat
deriving DecidableEq, Repr

/-- Model of `PoseidonRead`: the sponge state and the remaining input bytes. -/
structure PoseidonRead where
  state : PoseidonState
  reader : List Nat
deriving DecidableEq, Repr

/-- Model of `PoseidonWrite::init(writer, r_f, r_p)`. -/
def PoseidonWrite.init (writer : List Nat) (rF rP : Nat) : PoseidonWrite :=
  { state := Poseidon.new rF rP, writer := writer }

/-- Model of `PoseidonRead::init(reader, r_f, r_p)`. -/
def PoseidonRead.init (reader : List Nat) (rF rP : Nat) : PoseidonRead :=
  { state := Poseidon.new rF rP, reader := reader }

/-- Model of `PoseidonWrite::finalize`: hand the accumulated byte sink back. -/
def finalize (t : PoseidonWrite) : List Nat :=
  t.writer

/-- Model of `TranscriptWrite::write_point` (poseidon.rs lines 199-203):
`common_point` first (its error propagates, leaving the writer untouched), then
append the compressed encoding of the point to the sink. -/
def write_point (M : Model) (Enc : APoint → Except TErr (List Nat)) (t : PoseidonWrite)
    (point : APoint) : PoseidonWrite × Except TErr Unit :=
  match common_point Enc t.state point with
  | (st, .error e) => ({ t with state := st }, .error e)
  | (st, .ok ()) => ({ state := st, writer := t.writer ++ M.pointToBytes point }, .ok ())

/-- Model of `TranscriptWrite::write_scalar` (poseidon.rs lines 204-208):
`common_scalar`, then append the canonical scalar bytes to the sink. -/
def write_scalar (M : Model) (t : PoseidonWrite) (scalar : Nat) :
    PoseidonWrite × Except TErr Unit :=
  match common_scalar t.state scalar with
  | (st, .error e) => ({ t with state := st }, .error e)
  | (st, .ok ()) => ({ state := st, writer := t.writer ++ scalar_to_repr M scalar }, .ok ())

/-- Model of `Read::read_exact` on a byte slice: fail with `UnexpectedEof` (without
consuming) when fewer than `n` bytes remain, else yield the `n` bytes and the rest. -/
def read_exact (src : List Nat) (n : Nat) : Except TErr (List Nat × List Nat) :=
  if src.length < n then .error .unexpectedEof
  else .ok (src.take n, src.drop n)

/-- Model of `TranscriptRead::read_point` (poseidon.rs lines 106-115): read exactly
one compressed point encoding, decode it (error `invalid point encoding in proof` if
the bytes are no valid point), funnel it through `common_point`, and return it. -/
def read_point (M : Model) (Enc : APoint → Except TErr (List Nat)) (t : PoseidonRead) :
    PoseidonRead × Except TErr APoint :=
  match read_exact t.reader M.pointWidth with
  | .error e => (t, .error e)
  | .ok (compressed, rest) =>
    match M.pointFromBytes compressed with
    | none => ({ t with reader := rest }, .error .invalidPointEncoding)
    | some point =>
      match common_point Enc t.state point with
      | (st, .error e) => ({ state := st, reader := rest }, .error e)
      | (st, .ok ()) => ({ state := st, reader := rest }, .ok point)

/-- Model of `TranscriptRead::read_scalar` (poseidon.rs lines 117-129): read exactly
one canonical scalar width of bytes, decode with `from_repr` (error `invalid field
element encoding in proof` on a non-canonical value), funnel through
`common_scalar`, and return it. -/
def read_scalar (M : Model) (t : PoseidonRead) : PoseidonRead × Except TErr Nat :=
  match read_exact t.reader M.scalarWidth with
  | .error e => (t, .error e)
  | .ok (data, rest) =>
    match scalar_from_repr M data with
    | none => ({ t with reader := rest }, .error .invalidScalarEncoding)
    | some scalar =>
      match common_scalar t.state scalar with
      | (st, .error e) => ({ state := st, reader := rest }, .error e)
      | (st, .ok ()) => ({ state := st, reader := rest }, .ok scalar)

/-- One prover-side transcript call: `write_point`, `write_scalar`, or
`squeeze_challenge`.  A reader replays the same pattern with `read_point` /
`read_scalar` substituted. -/
inductive TOp where
  | opoint (point : APoint)
  | oscalar (scalar : Nat)
  | osqueeze
deriving DecidableEq, Repr

/-- A value moved through the transcript: a point or a scalar. -/
inductive TVal where
  | vpoint (point : APoint)
  | vscalar (scalar : Nat)
deriving DecidableEq, Repr

/-- Values written by a call sequence, in call order. -/
def opValues : List TOp → List TVal
  | [] => []
  | .opoint pt :: ops => .vpoint pt :: opValues ops
  | .oscalar s :: ops => .vscalar s :: opValues ops
  | .osqueeze :: ops => opValues ops

/-- Bytes an operation emits on the wire: the compressed point encoding for
`write_point`, the canonical scalar bytes for `write_scalar`, nothing for
`squeeze_challenge`. -/
def wireEnc (M : Model) : TOp → List Nat
  | .opoint pt => M.pointToBytes pt
  | .oscalar s => scalar_to_repr M s
  | .osqueeze => []

/-- Concatenation, in call order, of the bytes each operation emits. -/
def wireBytes (M : Model) (ops : List TOp) : List Nat :=
  ops.foldr (fun op acc => wireEnc M op ++ acc) []

/-- Run a call sequence against a Write transcript, aborting at the first error and
collecting the squeezed challenges in order. -/
def runWrite (M : Model) (Enc : APoint → Except TErr (List Nat)) :
    List TOp → PoseidonWrite → PoseidonWrite × Except TErr (List Nat)
  | [], t => (t, .ok [])
  | .opoint pt :: ops, t =>
    match write_point M Enc t pt with
    | (t, .error e) => (t, .error e)
    | (t, .ok ()) => runWrite M Enc ops t
  | .oscalar s :: ops, t =>
    match write_scalar M t s with
    | (t, .error e) => (t, .error e)
    | (t, .ok ()) => runWrite M Enc ops t
  | .osqueeze :: ops, t =>
    let (st, c) := squeeze_challenge M t.state
    match runWrite M Enc ops { t with state := st } with
    | (t, .error e) => (t, .error e)
    | (t, .ok cs) => (t, .ok (c :: cs))

/-- Replay a call pattern against a Read transcript (the payloads of `opoint` /
`oscalar` are ignored: the values come from the byte stream), aborting at the first
error and collecting the decoded values and the squeezed challenges in order. -/
def runRead (M : Model) (Enc : APoint → Except TErr (List Nat)) :
    List TOp → PoseidonRead → PoseidonRead × Except TErr (List TVal × List Nat)
  | [], t => (t, .ok ([], []))
  | .opoint _ :: ops, t =>
    match read_point M Enc t with
    | (t, .error e) => (t, .error e)
    | (t, .ok pt) =>
      match runRead M Enc ops t with
      | (t, .error e) => (t, .error e)
      | (t, .ok (vs, cs)) => (t, .ok (.vpoint pt :: vs, cs))
  | .oscalar _ :: ops, t =>
    match read_scalar M t with
    | (t, .error e) => (t, .error e)
    | (t, .ok s) =>
      match runRead M Enc ops t with
      | (t, .error e) => (t, .error e)
      | (t, .ok (vs, cs)) => (t, .ok (.vscalar s :: vs, cs))
  | .osqueeze :: ops, t =>
    let (st, c) := squeeze_challenge M t.state
    match runRead M Enc ops { t with state := st } with
    | (t, .error e) => (t, .error e)
    | (t, .ok (vs, cs)) => (t, .ok (vs, c :: cs))

/-- A call payload the Rust type system would admit: points carry canonical
coordinates and lie on the curve (or are the identity), scalars are canonical. -/
def ValidOp (M : Model) : TOp → Bool
  | .opoint .identity => true
  | .opoint (.affine x y) => decide (x < M.p) && decide (y < M.p) && M.isOnCurve x y
  | .oscalar s => decide (s < M.r)
  | .osqueeze => true

/-- Concrete instance used by witnesses: the curve `y^2 = x^3 + 3` over the base
field of modulus 13, target ("scalar") modulus 11, 1-byte canonical scalar
encoding, and the 2-byte compressed point encoding `[x, y]` with the identity
encoded as `[0, 0]` (which is not on the curve, so decoding is unambiguous).
The squeezed value is the length of the sponge history. -/
def Mw : Model where
  p := 13
  r := 11
  scalarWidth := 1
  pointWidth := 2
  r_pos := by norm_num
  r_le_width := by norm_num
  isOnCurve := fun x y => (y * y) % 13 == (x * x * x + 3) % 13
  pointToBytes := fun pt =>
    match pt with
    | .identity => [0, 0]
    | .affine x y => [x % 256, y % 256]
  pointFromBytes := fun bytes =>
    match bytes with
    | [a, b] =>
      if a == 0 && b == 0 then some .identity
      else if (b * b) % 13 == (a * a * a + 3) % 13 then some (.affine a b)
      else none
    | _ => none
  squeezeFn := fun st => st.trace.length
  pointToBytes_length := by intro pt; cases pt <;> rfl
  point_roundtrip := by decide

/-- Base-field modulus of bn256 (`G1Affine`), the curve the repository tests with. -/
def bn256_base_modulus : Nat :=
  21888242871839275222246405745257275088696311157297823662689037894645226208583

/-- Scalar-field modulus of bn256 (`Fr`). -/
def bn256_scalar_modulus : Nat :=
  21888242871839275222246405745257275088548364400416034343698204186575808495617

theorem fromLEBytes_nil : fromLEBytes [] = 0 := rfl

theorem fromLEBytes_cons (d : Nat) (l : List Nat) :
    fromLEBytes (d :: l) = d + 256 * fromLEBytes l := rfl

theorem fromLEBytes_replicate_zero (k : Nat) : fromLEBytes (List.replicate k 0) = 0 := by
  induction k with
  | zero => rfl
  | succ k ih => simp [List.replicate_succ, fromLEBytes_cons, ih]

theorem fromLEBytes_append_replicate_zero (l : List Nat) (k : Nat) :
    fromLEBytes (l ++ List.replicate k 0) = fromLEBytes l := by
  induction l with
  | nil => simpa using fromLEBytes_replicate_zero k
  | cons d l ih => simp [fromLEBytes_cons, ih]

theorem leBytes_length (w : Nat) : ∀ m, (leBytes w m).length = w := by
  induction w with
  | zero => intro m; rfl
  | succ w ih => intro m; simp [leBytes, ih]

theorem fromLEBytes_leBytes (w : Nat) : ∀ m, m < 256 ^ w → fromLEBytes (leBytes w m) = m := by
  induction w with
  | zero =>
    intro m hm
    interval_cases m
    rfl
  | succ w ih =>
    intro m hm
    have hdiv : m / 256 < 256 ^ w := by
      rw [Nat.div_lt_iff_lt_mul (by norm_num)]
      calc m < 256 ^ (w + 1) := hm
        _ = 256 ^ w * 256 := by ring
    simp only [leBytes, fromLEBytes_cons, ih _ hdiv]
    exact Nat.mod_add_div m 256

theorem leBytes_head (w m : Nat) : (leBytes (w + 1) m).headD 0 = m % 256 := rfl

theorem bytesLEAux_fromLE : ∀ fuel m, m ≤ fuel → fromLEBytes (bytesLEAux fuel m) = m := by
  intro fuel
  induction fuel with
  | zero =>
    intro m hm
    interval_cases m
    rfl
  | succ fuel ih =>
    intro m hm
    by_cases h0 : m = 0
    · simp [bytesLEAux, h0, fromLEBytes_nil]
    · have hlt : m / 256 ≤ fuel := by
        have : m / 256 < m := Nat.div_lt_self (Nat.pos_of_ne_zero h0) (by norm_num)
        omega
      simp only [bytesLEAux, h0, if_false, fromLEBytes_cons, ih _ hlt]
      exact Nat.mod_add_div m 256

theorem bytesLEAux_length : ∀ fuel m k, m < 256 ^ k → (bytesLEAux fuel m).length ≤ k := by
  intro fuel
  induction fuel with
  | zero => intro m k _; simp [bytesLEAux]
  | succ fuel ih =>
    intro m k hm
    by_cases h0 : m = 0
    · simp [bytesLEAux, h0]
    · cases k with
      | zero =>
        simp only [pow_zero, Nat.lt_one_iff] at hm
        exact absurd hm h0
      | succ k =>
        have hdiv : m / 256 < 256 ^ k := by
          rw [Nat.div_lt_iff_lt_mul (by norm_num)]
          calc m < 256 ^ (k + 1) := hm
            _ = 256 ^ k * 256 := by ring
        simp only [bytesLEAux, h0, if_false, List.length_cons]
        exact Nat.succ_le_succ (ih _ _ hdiv)

theorem to_bytes_le_fromLE (m : Nat) : fromLEBytes (to_bytes_le m) = m := by
  by_cases h0 : m = 0
  · simp [to_bytes_le, h0, fromLEBytes_cons, fromLEBytes_nil]
  · simp only [to_bytes_le, h0, if_false]
    exact bytesLEAux_fromLE m m le_rfl

theorem to_bytes_le_length (m k : Nat) (hk : 0 < k) (hm : m < 256 ^ k) :
    (to_bytes_le m).length ≤ k := by
  by_cases h0 : m = 0
  · simp [to_bytes_le, h0]; omega
  · simp only [to_bytes_le, h0, if_false]
    exact bytesLEAux_length m m k hm

theorem big_to_fe_eq (r e : Nat) (hr : 0 < r) (hr2 : r ≤ 2 ^ 256) :
    big_to_fe r e = some (e % r) := by
  have h256 : (2 : Nat) ^ 256 = 256 ^ 32 := by norm_num
  have hm : e % r < 256 ^ 32 := lt_of_lt_of_le (Nat.mod_lt e hr) (h256 ▸ hr2)
  have hlen : (to_bytes_le (e % r)).length ≤ 32 := to_bytes_le_length _ 32 (by norm_num) hm
  set l := to_bytes_le (e % r) with hl
  have hresize : resizeList l 32 = l ++ List.replicate (32 - l.length) 0 := by
    simp [resizeList, hlen]
  have hrlen : (resizeList l 32).length = 32 := by
    rw [hresize]
    simp [List.length_replicate]
    omega
  have hval : fromLEBytes ((resizeList l 32).take 32) = e % r := by
    rw [List.take_of_length_le (le_of_eq hrlen), hresize,
      fromLEBytes_append_replicate_zero, hl, to_bytes_le_fromLE]
  have hbig : big_to_fe r e = field_read r (resizeList l 32) := rfl
  rw [hbig, field_read, if_neg (by omega), hval, if_pos (Nat.mod_lt e hr)]

theorem fe_to_big_eq (fe : Nat) (h : fe < 2 ^ 256) : fe_to_big fe = fe := by
  have h256 : (2 : Nat) ^ 256 = 256 ^ 32 := by norm_num
  exact fromLEBytes_leBytes 32 fe (h256 ▸ h)

theorem sign_eq (fe : Nat) : sign fe = (fe % 2 == 0) := by
  have h : (leBytes 32 fe).headD 0 = fe % 256 := leBytes_head 31 fe
  rw [sign, h, Nat.and_one_is_mod, Nat.mod_mod_of_dvd fe (by norm_num)]

theorem PoseidonState.update_nil (st : PoseidonState) : st.update [] = st := by
  cases st
  simp [PoseidonState.update]

theorem decompose_big_go_total (r bit_len : Nat) (hr : 0 < r) (hr2 : r ≤ 2 ^ 256) :
    ∀ (L e : Nat), ∃ limbs, decompose_big_go r bit_len e L = some limbs ∧ limbs.length = L := by
  intro L
  induction L with
  | zero => intro e; exact ⟨[], rfl, rfl⟩
  | succ L ih =>
    intro e
    obtain ⟨rest, h1, h2⟩ := ih (e >>> bit_len)
    refine ⟨((2 ^ bit_len - 1) &&& e) % r :: rest, ?_, by simp [h2]⟩
    simp only [decompose_big_go, big_to_fe_eq _ _ hr hr2, h1]

theorem decompose_big_go_spec (r bit_len : Nat) (hr : 0 < r) (hr2 : r ≤ 2 ^ 256)
    (hb : 2 ^ bit_len ≤ r) :
    ∀ (L e : Nat), e < 2 ^ (L * bit_len) →
      ∃ limbs, decompose_big_go r bit_len e L = some limbs ∧ limbs.length = L ∧
        recomposeLimbs bit_len limbs = e := by
  intro L
  induction L with
  | zero =>
    intro e he
    simp only [Nat.zero_mul, pow_zero, Nat.lt_one_iff] at he
    exact ⟨[], rfl, rfl, by simp [recomposeLimbs, he]⟩
  | succ L ih =>
    intro e he
    have hpow : 0 < 2 ^ bit_len := Nat.pos_pow_of_pos bit_len (by norm_num)
    have hmask : (2 ^ bit_len - 1) &&& e = e % 2 ^ bit_len := by
      rw [Nat.land_comm]
      exact Nat.and_pow_two_sub_one_eq_mod e bit_len
    have hmod : e % 2 ^ bit_len < r := lt_of_lt_of_le (Nat.mod_lt e hpow) hb
    have hshift : e >>> bit_len = e / 2 ^ bit_len := Nat.shiftRight_eq_div_pow e bit_len
    have hdiv : e / 2 ^ bit_len < 2 ^ (L * bit_len) := by
      rw [Nat.div_lt_iff_lt_mul hpow]
      calc e < 2 ^ ((L + 1) * bit_len) := he
        _ = 2 ^ (L * bit_len) * 2 ^ bit_len := by rw [← pow_add]; ring_nf
    obtain ⟨rest, h1, h2, h3⟩ := ih (e / 2 ^ bit_len) hdiv
    refine ⟨e % 2 ^ bit_len :: rest, ?_, by simp [h2], ?_⟩
    · have hfe : big_to_fe r ((2 ^ bit_len - 1) &&& e) = some (e % 2 ^ bit_len) := by
        rw [hmask, big_to_fe_eq _ _ hr hr2, Nat.mod_eq_of_lt hmod]
      simp only [decompose_big_go, hfe, hshift, h1]
    · simp only [recomposeLimbs, List.foldr_cons]
      have : recomposeLimbs bit_len rest = e / 2 ^ bit_len := h3
      rw [recomposeLimbs] at this
      rw [this]
      exact Nat.mod_add_div e (2 ^ bit_len)

/-- C9 (confirmed): `big_to_fe` reduces its input modulo the target modulus `r`,
pads the little-endian bytes to the canonical 32-byte width, and decodes to the
canonical representative of `n mod r`; the internal decode can never fail on this
canonically-reduced input (the result is always `some`). -/
theorem big_to_fe_reduces (r n : Nat) (hr : 0 < r) (hr2 : r ≤ 2 ^ 256) :
    big_to_fe r n = some (n % r) :=
  big_to_fe_eq r n hr hr2

theorem big_to_fe_reduces_witness :
    0 < 11 ∧ (11 : Nat) ≤ 2 ^ 256 ∧ big_to_fe 11 25 = some (25 % 11) :=
  ⟨by norm_num, by norm_num, big_to_fe_reduces 11 25 (by norm_num) (by norm_num)⟩

/-- C4 counterexample: on bn256 (the curve the repository tests with), with
`L = 1` limb of `b = 254` bits — a choice satisfying the claim's only side
condition `L*b ≥ bit-length(base modulus)`, since `2^253 ≤ p < 2^254` — the
base-field element `x = r` (the scalar modulus, a valid base element as `r < p`)
decomposes to the single limb `0`, because the limb is reduced modulo `r` by
`big_to_fe`; the recombination `Σ limb_i * 2^(i*b) = 0` does not recover `x`. -/
theorem limb_roundtrip_cex :
    bn256_scalar_modulus < bn256_base_modulus ∧
    2 ^ 253 ≤ bn256_base_modulus ∧ bn256_base_modulus ≤ 2 ^ (1 * 254) ∧
    decompose bn256_scalar_modulus bn256_scalar_modulus 1 254 = some [0] ∧
    recomposeLimbs 254 [0] ≠ bn256_scalar_modulus := by
  have hr : (0 : Nat) < bn256_scalar_modulus := by norm_num [bn256_scalar_modulus]
  have hfe : fe_to_big bn256_scalar_modulus = bn256_scalar_modulus :=
    fe_to_big_eq _ (by norm_num [bn256_scalar_modulus])
  have hmask : (2 ^ 254 - 1) &&& bn256_scalar_modulus = bn256_scalar_modulus := by
    rw [Nat.land_comm, Nat.and_pow_two_sub_one_eq_mod,
      Nat.mod_eq_of_lt (by norm_num [bn256_scalar_modulus])]
  have hb2f : big_to_fe bn256_scalar_modulus bn256_scalar_modulus = some 0 := by
    rw [big_to_fe_eq _ _ hr (by norm_num [bn256_scalar_modulus]), Nat.mod_self]
  refine ⟨by norm_num [bn256_scalar_modulus, bn256_base_modulus],
    by norm_num [bn256_base_modulus], by norm_num [bn256_base_modulus], ?_, ?_⟩
  · rw [decompose, decompose_big, hfe]
    simp only [decompose_big_go, hmask, hb2f]
  · simp only [recomposeLimbs, List.foldr_cons, List.foldr_nil]
    norm_num [bn256_scalar_modulus]

/-- C4 (amended): for every base-field element `x` and every limb count `L` and
bit length `b` with `L*b` at least the bit-length of the base modulus, PROVIDED
additionally that a `b`-bit limb fits the scalar field without reduction
(`2^b ≤ r` — the limbs pass through `big_to_fe`, which reduces modulo `r`, so the
counterexample above forces this extra bound), `decompose` returns `L` limbs,
least-significant first, whose recombination `Σ limb_i * 2^(i*b)` is exactly `x`. -/
theorem limb_decomposition_roundtrip (p r x L b : Nat)
    (hx : x < p) (hcover : p ≤ 2 ^ (L * b)) (hlimb : 2 ^ b ≤ r)
    (hr : 0 < r) (hr2 : r ≤ 2 ^ 256) (hx256 : x < 2 ^ 256) :
    ∃ limbs, decompose r x L b = some limbs ∧ limbs.length = L ∧
      recomposeLimbs b limbs = x := by
  have hfe : fe_to_big x = x := fe_to_big_eq x hx256
  have hxlt : x < 2 ^ (L * b) := lt_of_lt_of_le hx hcover
  obtain ⟨limbs, h1, h2, h3⟩ := decompose_big_go_spec r b hr hr2 hlimb L x hxlt
  refine ⟨limbs, ?_, h2, h3⟩
  rw [decompose, decompose_big, hfe]
  exact h1

theorem limb_decomposition_roundtrip_witness :
    12 < 13 ∧ (13 : Nat) ≤ 2 ^ (2 * 3) ∧ (2 : Nat) ^ 3 ≤ 11 ∧ 0 < 11 ∧
    (11 : Nat) ≤ 2 ^ 256 ∧ 12 < 2 ^ 256 ∧
    (∃ limbs, decompose 11 12 2 3 = some limbs ∧ limbs.length = 2 ∧
      recomposeLimbs 3 limbs = 12) :=
  ⟨by norm_num, by norm_num, by norm_num, by norm_num, by norm_num, by norm_num,
    limb_decomposition_roundtrip 13 11 12 2 3 (by norm_num) (by norm_num) (by norm_num)
      (by norm_num) (by norm_num) (by norm_num)⟩

/-- C5 (confirmed): for an on-curve, non-identity point with canonical coordinates,
the limb strategy encodes exactly `L + 1` scalar elements: the `L` limbs of the `x`
coordinate (as produced by `decompose`) followed by one element that is `1` when
`y`'s canonical little-endian byte encoding has even parity and `0` when odd. -/
theorem limb_encode_shape (M : Model) (L b x y : Nat)
    (hc : M.isOnCurve x y = true) (hr2 : M.r ≤ 2 ^ 256) (hx256 : x < 2 ^ 256) :
    ∃ limbs, decompose M.r x L b = some limbs ∧ limbs.length = L ∧
      LimbRepresentation.encode M L b (APoint.affine x y)
        = Except.ok (limbs ++ [if y % 2 = 0 then 1 else 0]) := by
  have hfe : fe_to_big x = x := fe_to_big_eq x hx256
  obtain ⟨limbs, h1, h2⟩ := decompose_big_go_total M.r b M.r_pos hr2 L x
  have hdec : decompose M.r x L b = some limbs := by
    rw [decompose, decompose_big, hfe]
    exact h1
  refine ⟨limbs, hdec, h2, ?_⟩
  have hsign : (if sign y then (1 : Nat) else 0) = (if y % 2 = 0 then 1 else 0) := by
    rw [sign_eq]
    by_cases h : y % 2 = 0 <;> simp [h]
  simp only [LimbRepresentation.encode, is_on_curve, hc, is_identity, Bool.not_true,
    Bool.false_eq_true, if_false, xy, hdec, hsign]

theorem limb_encode_shape_witness :
    Mw.isOnCurve 1 2 = true ∧ Mw.r ≤ 2 ^ 256 ∧ 1 < 2 ^ 256 ∧
    (∃ limbs, decompose Mw.r 1 2 3 = some limbs ∧ limbs.length = 2 ∧
      LimbRepresentation.encode Mw 2 3 (APoint.affine 1 2)
        = Except.ok (limbs ++ [if 2 % 2 = 0 then 1 else 0])) :=
  ⟨by decide, by decide, by decide,
    limb_encode_shape Mw 2 3 1 2 (by decide) (by decide) (by decide)⟩

/-- C6 (confirmed): for a non-identity point with canonical coordinates, the native
strategy emits exactly the 2 scalar elements obtained by reducing the integer value
of `x` and of `y`, each independently, modulo the scalar modulus via `big_to_fe`. -/
theorem native_encode_pair (M : Model) (x y : Nat)
    (hr2 : M.r ≤ 2 ^ 256) (hx256 : x < 2 ^ 256) (hy256 : y < 2 ^ 256) :
    NativeRepresentation.encode M (APoint.affine x y)
      = Except.ok [x % M.r, y % M.r] := by
  have hnx : native M.r x = some (x % M.r) := by
    rw [native, fe_to_big_eq x hx256, big_to_fe_eq _ _ M.r_pos hr2,
      Nat.mod_mod_of_dvd x dvd_rfl]
  have hny : native M.r y = some (y % M.r) := by
    rw [native, fe_to_big_eq y hy256, big_to_fe_eq _ _ M.r_pos hr2,
      Nat.mod_mod_of_dvd y dvd_rfl]
  simp only [NativeRepresentation.encode, xy, hnx, hny]

theorem native_encode_pair_witness :
    Mw.r ≤ 2 ^ 256 ∧ 12 < 2 ^ 256 ∧ 5 < 2 ^ 256 ∧
    NativeRepresentation.encode Mw (APoint.affine 12 5)
      = Except.ok [12 % Mw.r, 5 % Mw.r] :=
  ⟨by decide, by decide, by decide,
    native_encode_pair Mw 12 5 (by decide) (by decide) (by decide)⟩

/-- C10 (confirmed): `common_scalar` (the one definition models the two identical
impls on `PoseidonRead` and `PoseidonWrite`, poseidon.rs lines 149-154 and 228-233)
returns `Ok` for every scalar and every sponge state — its result is always the
absorbed state with `Ok(())`.  Consequently `write_scalar` (whose byte sink is the
infallible `Vec<u8>`) always succeeds, and `read_scalar` succeeds whenever the
source holds enough bytes and they decode canonically — so a `read_scalar` failure
can only come from reading or decoding bytes, never from the absorption. -/
theorem scalar_absorption_infallible :
    (∀ (st : PoseidonState) (s : Nat),
      common_scalar st s = ((st.update []).update [s], Except.ok ())) ∧
    (∀ (M : Model) (t : PoseidonWrite) (s : Nat), (write_scalar M t s).2 = Except.ok ()) ∧
    (∀ (M : Model) (t : PoseidonRead), M.scalarWidth ≤ t.reader.length →
      fromLEBytes (t.reader.take M.scalarWidth) < M.r →
      (read_scalar M t).2 = Except.ok (fromLEBytes (t.reader.take M.scalarWidth))) := by
  refine ⟨fun st s => rfl, fun M t s => rfl, fun M t h1 h2 => ?_⟩
  simp only [read_scalar, read_exact]
  rw [if_neg (by omega)]
  simp only [scalar_from_repr]
  rw [if_pos h2]
  rfl

theorem scalar_absorption_infallible_witness :
    Mw.scalarWidth ≤ (PoseidonRead.init [5] 8 57).reader.length ∧
    fromLEBytes ((PoseidonRead.init [5] 8 57).reader.take Mw.scalarWidth) < Mw.r ∧
    (read_scalar Mw (PoseidonRead.init [5] 8 57)).2
      = Except.ok (fromLEBytes ((PoseidonRead.init [5] 8 57).reader.take Mw.scalarWidth)) :=
  ⟨by decide, by decide,
    scalar_absorption_infallible.2.2 Mw (PoseidonRead.init [5] 8 57) (by decide) (by decide)⟩

/-- C8 (confirmed): `read_scalar` on a source holding fewer bytes than the scalar's
canonical width fails with the stream-exhaustion error (`read_exact`'s
`UnexpectedEof`) and returns no value; `read_point` on bytes that decode to no
valid curve point fails with the decoding error `invalid point encoding in proof`
and returns no value.  Both errors surface immediately to the caller. -/
theorem read_failure_semantics :
    (∀ (M : Model) (t : PoseidonRead), t.reader.length < M.scalarWidth →
      read_scalar M t = (t, Except.error TErr.unexpectedEof)) ∧
    (∀ (M : Model) (Enc : APoint → Except TErr (List Nat)) (t : PoseidonRead),
      M.pointWidth ≤ t.reader.length →
      M.pointFromBytes (t.reader.take M.pointWidth) = none →
      read_point M Enc t = ({ t with reader := t.reader.drop M.pointWidth },
        Except.error TErr.invalidPointEncoding)) := by
  constructor
  · intro M t h
    simp only [read_scalar, read_exact]
    rw [if_pos h]
  · intro M Enc t h1 h2
    simp only [read_point, read_exact]
    rw [if_neg (by omega)]
    simp only [h2]

theorem read_failure_semantics_witness :
    (PoseidonRead.init [] 8 57).reader.length < Mw.scalarWidth ∧
    read_scalar Mw (PoseidonRead.init [] 8 57)
      = (PoseidonRead.init [] 8 57, Except.error TErr.unexpectedEof) ∧
    Mw.pointWidth ≤ (PoseidonRead.init [5, 5] 8 57).reader.length ∧
    Mw.pointFromBytes ((PoseidonRead.init [5, 5] 8 57).reader.take Mw.pointWidth) = none ∧
    read_point Mw (NativeRepresentation.encode Mw) (PoseidonRead.init [5, 5] 8 57)
      = ({ PoseidonRead.init [5, 5] 8 57 with
            reader := (PoseidonRead.init [5, 5] 8 57).reader.drop Mw.pointWidth },
          Except.error TErr.invalidPointEncoding) :=
  ⟨by decide, read_failure_semantics.1 Mw (PoseidonRead.init [] 8 57) (by decide),
    by decide, by decide,
    read_failure_semantics.2 Mw (NativeRepresentation.encode Mw)
      (PoseidonRead.init [5, 5] 8 57) (by decide) (by decide)⟩

/-- C2 evaluation (code bug): the source's domain-separation markers exist only in
comments — every operation calls `state.update(&[/* PREFIX_... */])`, an update
with the EMPTY slice, so nothing is absorbed before the payload.  Concretely:
(1) `common_scalar` grows the sponge history by exactly the one payload element,
with no marker; (2) `squeeze_challenge` advances the history by exactly the
squeeze event, again with no marker; (3) at the failing input, absorbing the
scalars `1` then `2` via two `common_scalar` calls leaves the sponge in exactly
the same state as absorbing the single on-curve point `(1, 2)` via `common_point`
under the native strategy — payload sequences of different operation kinds
collide, which distinct markers would prevent. -/
theorem domain_markers_absent :
    (∀ (st : PoseidonState) (s : Nat),
      (common_scalar st s).1.trace = st.trace ++ [SpongeEv.absorbed s]) ∧
    (∀ (M : Model) (st : PoseidonState),
      (squeeze_challenge M st).1.trace = st.trace ++ [SpongeEv.squeezed]) ∧
    ((common_scalar (common_scalar (Poseidon.new 8 57) 1).1 2).1
      = (common_point (NativeRepresentation.encode Mw) (Poseidon.new 8 57)
          (APoint.affine 1 2)).1) := by
  refine ⟨fun st s => ?_, fun M st => ?_, by decide⟩
  · simp [common_scalar, PoseidonState.update]
  · simp [squeeze_challenge, PoseidonState.update, PoseidonState.squeeze]

/-- C3 counterexample: under the limb strategy (the one the repository's test
uses), `common_point` applied to the identity does NOT fail with the explicit
point-at-infinity io error: `LimbRepresentation::encode` hits
`assert!(!point.is_identity())` first, a panic (`TErr.panicked`), which is a
different failure than the `cannot write points at infinity to the transcript`
io error (`TErr.infinity`) that `xy` would have produced. -/
theorem identity_error_kind_cex :
    (common_point (LimbRepresentation.encode Mw 2 3) (Poseidon.new 8 57)
        APoint.identity).2 = Except.error TErr.panicked ∧
    TErr.panicked ≠ TErr.infinity := by
  exact ⟨rfl, by decide⟩

/-- C3 (amended): for every point equal to the identity, `common_point` and
`write_point` fail before mutating the sponge — under the native strategy with the
explicit point-at-infinity io error, and under the limb strategy with an assertion
panic — and the sponge state (resp. the whole Write transcript) after the failed
attempt equals the state before the call: the only update preceding the failure is
with the empty slice, a no-op. -/
theorem identity_rejection (M : Model) (L b : Nat) (st : PoseidonState)
    (t : PoseidonWrite) :
    common_point (NativeRepresentation.encode M) st APoint.identity
      = (st, Except.error TErr.infinity) ∧
    common_point (LimbRepresentation.encode M L b) st APoint.identity
      = (st, Except.error TErr.panicked) ∧
    write_point M (NativeRepresentation.encode M) t APoint.identity
      = (t, Except.error TErr.infinity) ∧
    write_point M (LimbRepresentation.encode M L b) t APoint.identity
      = (t, Except.error TErr.panicked) := by
  have hnat : ∀ st' : PoseidonState,
      common_point (NativeRepresentation.encode M) st' APoint.identity
        = (st', Except.error TErr.infinity) := by
    intro st'
    simp [common_point, NativeRepresentation.encode, xy, PoseidonState.update_nil]
  have hlimb : ∀ st' : PoseidonState,
      common_point (LimbRepresentation.encode M L b) st' APoint.identity
        = (st', Except.error TErr.panicked) := by
    intro st'
    simp [common_point, LimbRepresentation.encode, is_on_curve, is_identity,
      PoseidonState.update_nil]
  refine ⟨hnat st, hlimb st, ?_, ?_⟩
  · rw [write_point, hnat t.state]
  · rw [write_point, hlimb t.state]

theorem wireBytes_nil (M : Model) : wireBytes M [] = [] := rfl

theorem wireBytes_cons (M : Model) (op : TOp) (ops : List TOp) :
    wireBytes M (op :: ops) = wireEnc M op ++ wireBytes M ops := rfl

theorem write_point_ok {M : Model} {Enc : APoint → Except TErr (List Nat)}
    {t t' : PoseidonWrite} {pt : APoint}
    (h : write_point M Enc t pt = (t', Except.ok ())) :
    ∃ enc, Enc pt = Except.ok enc ∧
      t' = { state := (t.state.update []).update enc,
             writer := t.writer ++ M.pointToBytes pt } := by
  cases hE : Enc pt with
  | error e => simp [write_point, common_point, hE] at h
  | ok enc =>
    refine ⟨enc, rfl, ?_⟩
    simp only [write_point, common_point, hE] at h
    exact (Prod.mk.injEq _ _ _ _ ▸ h).1.symm

theorem write_scalar_eq (M : Model) (t : PoseidonWrite) (s : Nat) :
    write_scalar M t s
      = ({ state := (t.state.update []).update [s],
           writer := t.writer ++ scalar_to_repr M s }, Except.ok ()) := rfl

theorem read_point_of_bytes {M : Model} {Enc : APoint → Except TErr (List Nat)}
    {st : PoseidonState} {pt : APoint} {enc rest : List Nat}
    (hdec : M.pointFromBytes (M.pointToBytes pt) = some pt)
    (henc : Enc pt = Except.ok enc) :
    read_point M Enc ⟨st, M.pointToBytes pt ++ rest⟩
      = (⟨(st.update []).update enc, rest⟩, Except.ok pt) := by
  have hlen : (M.pointToBytes pt).length = M.pointWidth := M.pointToBytes_length pt
  have htake : (M.pointToBytes pt ++ rest).take M.pointWidth = M.pointToBytes pt :=
    List.take_left' hlen
  have hdrop : (M.pointToBytes pt ++ rest).drop M.pointWidth = rest :=
    List.drop_left' hlen
  have hge : ¬(M.pointToBytes pt ++ rest).length < M.pointWidth := by
    rw [List.length_append, hlen]
    omega
  simp only [read_point, read_exact]
  rw [if_neg hge]
  simp only [htake, hdrop, hdec, common_point, henc]

theorem read_scalar_of_bytes {M : Model} {st : PoseidonState} {s : Nat} {rest : List Nat}
    (hs : s < M.r) :
    read_scalar M ⟨st, scalar_to_repr M s ++ rest⟩
      = (⟨(st.update []).update [s], rest⟩, Except.ok s) := by
  have hlen : (scalar_to_repr M s).length = M.scalarWidth := leBytes_length _ _
  have hval : fromLEBytes (scalar_to_repr M s) = s :=
    fromLEBytes_leBytes _ _ (lt_of_lt_of_le hs M.r_le_width)
  have htake : (scalar_to_repr M s ++ rest).take M.scalarWidth = scalar_to_repr M s :=
    List.take_left' hlen
  have hdrop : (scalar_to_repr M s ++ rest).drop M.scalarWidth = rest :=
    List.drop_left' hlen
  have hge : ¬(scalar_to_repr M s ++ rest).length < M.scalarWidth := by
    rw [List.length_append, hlen]
    omega
  simp only [read_scalar, read_exact]
  rw [if_neg hge]
  simp only [htake, hdrop, scalar_from_repr, hval]
  rw [if_pos hs]
  rfl

theorem runWrite_wire (M : Model) (Enc : APoint → Except TErr (List Nat)) :
    ∀ (ops : List TOp) (t t' : PoseidonWrite) (chals : List Nat),
      runWrite M Enc ops t = (t', Except.ok chals) →
      t'.writer = t.writer ++ wireBytes M ops := by
  intro ops
  induction ops with
  | nil =>
    intro t t' chals h
    simp only [runWrite, Prod.mk.injEq] at h
    simp [← h.1, wireBytes_nil]
  | cons op ops ih =>
    cases op with
    | opoint pt =>
      intro t t' chals h
      simp only [runWrite] at h
      rcases hW : write_point M Enc t pt with ⟨t1, res⟩
      rw [hW] at h
      cases res with
      | error e => simp at h
      | ok u =>
        cases u
        obtain ⟨enc, hE, ht1⟩ := write_point_ok hW
        have := ih t1 t' chals h
        rw [this, ht1, wireBytes_cons, wireEnc]
        simp [List.append_assoc]
    | oscalar s =>
      intro t t' chals h
      simp only [runWrite, write_scalar_eq] at h
      have := ih _ t' chals h
      rw [this, wireBytes_cons, wireEnc]
      simp [List.append_assoc]
    | osqueeze =>
      intro t t' chals h
      simp only [runWrite] at h
      rcases hR : runWrite M Enc ops { t with state := (squeeze_challenge M t.state).1 }
        with ⟨t1, res⟩
      rw [hR] at h
      cases res with
      | error e => simp at h
      | ok cs =>
        simp only [Prod.mk.injEq] at h
        have := ih _ t1 cs hR
        rw [← h.1, this, wireBytes_cons, wireEnc]
        simp

theorem runRead_replays (M : Model) (Enc : APoint → Except TErr (List Nat))
    (hEncId : (Enc APoint.identity).isOk = false) :
    ∀ (ops : List TOp) (st : PoseidonState) (w : List Nat) (t' : PoseidonWrite)
      (chals : List Nat),
      (∀ op ∈ ops, ValidOp M op = true) →
      runWrite M Enc ops ⟨st, w⟩ = (t', Except.ok chals) →
      ∀ extra, runRead M Enc ops ⟨st, wireBytes M ops ++ extra⟩
        = (⟨t'.state, extra⟩, Except.ok (opValues ops, chals)) := by
  intro ops
  induction ops with
  | nil =>
    intro st w t' chals hv h extra
    simp only [runWrite, Prod.mk.injEq, Except.ok.injEq] at h
    simp [runRead, wireBytes_nil, ← h.1, ← h.2, opValues]
  | cons op ops ih =>
    cases op with
    | opoint pt =>
      intro st w t' chals hv h extra
      have hvp : ValidOp M (TOp.opoint pt) = true := hv _ (List.mem_cons_self _ _)
      have hv' : ∀ op ∈ ops, ValidOp M op = true :=
        fun op hm => hv op (List.mem_cons_of_mem _ hm)
      simp only [runWrite] at h
      rcases hW : write_point M Enc ⟨st, w⟩ pt with ⟨t1, res⟩
      simp only [hW] at h
      cases res with
      | error e => simp at h
      | ok u =>
        cases u
        obtain ⟨enc, hE, ht1⟩ := write_point_ok hW
        cases pt with
        | identity =>
          rw [hE] at hEncId
          simp [Except.isOk, Except.toBool] at hEncId
        | affine x y =>
          simp only [ValidOp, Bool.and_eq_true, decide_eq_true_eq] at hvp
          have hdec := M.point_roundtrip x hvp.1.1 y hvp.1.2 hvp.2
          rw [ht1] at h
          have hread := ih _ _ _ _ hv' h extra
          rw [wireBytes_cons, wireEnc, List.append_assoc]
          simp only [runRead]
          rw [read_point_of_bytes hdec hE]
          simp only [hread, opValues]
    | oscalar s =>
      intro st w t' chals hv h extra
      have hvp : ValidOp M (TOp.oscalar s) = true := hv _ (List.mem_cons_self _ _)
      have hv' : ∀ op ∈ ops, ValidOp M op = true :=
        fun op hm => hv op (List.mem_cons_of_mem _ hm)
      simp only [ValidOp, decide_eq_true_eq] at hvp
      simp only [runWrite, write_scalar_eq] at h
      have hread := ih _ _ _ _ hv' h extra
      rw [wireBytes_cons, wireEnc, List.append_assoc]
      simp only [runRead]
      rw [read_scalar_of_bytes hvp]
      simp only [hread, opValues]
    | osqueeze =>
      intro st w t' chals hv h extra
      have hv' : ∀ op ∈ ops, ValidOp M op = true :=
        fun op hm => hv op (List.mem_cons_of_mem _ hm)
      simp only [runWrite] at h
      rcases hR : runWrite M Enc ops { state := (squeeze_challenge M st).1, writer := w }
        with ⟨t1, res⟩
      rw [show ({ (⟨st, w⟩ : PoseidonWrite) with state := (squeeze_challenge M st).1 } :
        PoseidonWrite) = { state := (squeeze_challenge M st).1, writer := w } from rfl,
        hR] at h
      cases res with
      | error e => simp at h
      | ok cs =>
        simp only [Prod.mk.injEq, Except.ok.injEq] at h
        have hread := ih _ _ _ _ hv' hR extra
        rw [wireBytes_cons, wireEnc]
        simp only [runRead, List.nil_append]
        simp only [hread, opValues, ← h.1, ← h.2]

/-- C1 (confirmed): for every call sequence on a `PoseidonWrite` transcript
initialized with round parameters `rF, rP` — values being well-typed curve points
and canonical scalars, the encoding strategy rejecting the identity (both shipped
strategies do), and the write run succeeding with challenge list `chals` — feeding
the bytes `finalize` returns to a `PoseidonRead` transcript initialized with the
same parameters and replaying the same call pattern (with `read_point` /
`read_scalar` substituted) succeeds, every read returns exactly the value that was
written (`opValues ops`), every squeeze at the same logical position returns an
equal challenge (the same list `chals`), the reader consumes the byte stream
exactly, and the two final sponge states coincide. -/
theorem poseidon_roundtrip (M : Model) (Enc : APoint → Except TErr (List Nat))
    (rF rP : Nat) (ops : List TOp) (chals : List Nat)
    (hEncId : (Enc APoint.identity).isOk = false)
    (hv : ∀ op ∈ ops, ValidOp M op = true)
    (hw : (runWrite M Enc ops (PoseidonWrite.init [] rF rP)).2 = Except.ok chals) :
    runRead M Enc ops (PoseidonRead.init
        (finalize (runWrite M Enc ops (PoseidonWrite.init [] rF rP)).1) rF rP)
      = (⟨(runWrite M Enc ops (PoseidonWrite.init [] rF rP)).1.state, []⟩,
          Except.ok (opValues ops, chals)) := by
  have hpair : runWrite M Enc ops (PoseidonWrite.init [] rF rP)
      = ((runWrite M Enc ops (PoseidonWrite.init [] rF rP)).1, Except.ok chals) := by
    rw [← hw]
  have hwire := runWrite_wire M Enc ops _ _ _ hpair
  have hread := runRead_replays M Enc hEncId ops (Poseidon.new rF rP) [] _ _ hv hpair []
  have harg : PoseidonRead.init
      (finalize (runWrite M Enc ops (PoseidonWrite.init [] rF rP)).1) rF rP
      = (⟨Poseidon.new rF rP, wireBytes M ops ++ []⟩ : PoseidonRead) := by
    rw [PoseidonRead.init, finalize, hwire]
    simp [PoseidonWrite.init]
  rw [harg, hread]

theorem poseidon_roundtrip_witness :
    ((LimbRepresentation.encode Mw 2 3) APoint.identity).isOk = false ∧
    (∀ op ∈ [TOp.opoint (APoint.affine 1 2), TOp.oscalar 5, TOp.osqueeze],
      ValidOp Mw op = true) ∧
    (runWrite Mw (LimbRepresentation.encode Mw 2 3)
        [TOp.opoint (APoint.affine 1 2), TOp.oscalar 5, TOp.osqueeze]
        (PoseidonWrite.init [] 8 57)).2 = Except.ok [4] ∧
    runRead Mw (LimbRepresentation.encode Mw 2 3)
        [TOp.opoint (APoint.affine 1 2), TOp.oscalar 5, TOp.osqueeze]
        (PoseidonRead.init (finalize (runWrite Mw (LimbRepresentation.encode Mw 2 3)
          [TOp.opoint (APoint.affine 1 2), TOp.oscalar 5, TOp.osqueeze]
          (PoseidonWrite.init [] 8 57)).1) 8 57)
      = (⟨(runWrite Mw (LimbRepresentation.encode Mw 2 3)
            [TOp.opoint (APoint.affine 1 2), TOp.oscalar 5, TOp.osqueeze]
            (PoseidonWrite.init [] 8 57)).1.state, []⟩,
          Except.ok (opValues [TOp.opoint (APoint.affine 1 2), TOp.oscalar 5,
            TOp.osqueeze], [4])) :=
  ⟨by decide, by decide, by rfl,
    poseidon_roundtrip Mw (LimbRepresentation.encode Mw 2 3) 8 57
      [TOp.opoint (APoint.affine 1 2), TOp.oscalar 5, TOp.osqueeze] [4]
      (by decide) (by decide) (by rfl)⟩

/-- C7 (confirmed): the byte stream `finalize` returns after a successful run is
exactly the concatenation, in call order, of each operation's canonical encoding —
the compressed point bytes for each `write_point`, the canonical scalar bytes for
each `write_scalar`, and nothing at all for `squeeze_challenge` — with no length
prefix, separator, or other bytes (`wireBytes` is exactly that concatenation). -/
theorem wire_format_concat (M : Model) (Enc : APoint → Except TErr (List Nat))
    (rF rP : Nat) (ops : List TOp) (res : List Nat)
    (hw : (runWrite M Enc ops (PoseidonWrite.init [] rF rP)).2 = Except.ok res) :
    finalize (runWrite M Enc ops (PoseidonWrite.init [] rF rP)).1 = wireBytes M ops := by
  have hpair : runWrite M Enc ops (PoseidonWrite.init [] rF rP)
      = ((runWrite M Enc ops (PoseidonWrite.init [] rF rP)).1, Except.ok res) := by
    rw [← hw]
  have hwire := runWrite_wire M Enc ops _ _ _ hpair
  simpa [finalize, PoseidonWrite.init] using hwire

theorem wire_format_concat_witness :
    (runWrite Mw (LimbRepresentation.encode Mw 2 3)
        [TOp.opoint (APoint.affine 1 2), TOp.oscalar 5, TOp.osqueeze]
        (PoseidonWrite.init [] 8 57)).2 = Except.ok [4] ∧
    finalize (runWrite Mw (LimbRepresentation.encode Mw 2 3)
        [TOp.opoint (APoint.affine 1 2), TOp.oscalar 5, TOp.osqueeze]
        (PoseidonWrite.init [] 8 57)).1
      = wireBytes Mw [TOp.opoint (APoint.affine 1 2), TOp.oscalar 5, TOp.osqueeze] :=
  ⟨by rfl,
    wire_format_concat Mw (LimbRepresentation.encode Mw 2 3) 8 57
      [TOp.opoint (APoint.affine 1 2), TOp.oscalar 5, TOp.osqueeze] [4] (by rfl)⟩
